import Mathlib

/-!
Verification of the `Magnet` procedural image synthesizer
(`Malevich/magnet_image_generator.py`).

Modelling conventions:
* Machine floats are modelled exactly: a value is `Option ℚ`, where
  `some q` is the finite value `q` and `none` stands for a non-finite
  float (`inf` or `NaN`).  The only source of non-finite values in this
  model is division by exactly zero; IEEE overflow is outside the model.
* NumPy arrays are three-axis arrays: a shape `(s0, s1, s2)` plus a
  total element function.  Element-wise operations broadcast axes of
  size 1 exactly as NumPy does; incompatible shapes make the binary
  operation fail (`none`), mirroring the broadcast error NumPy raises.
* The entropy source is an oracle stream `s : ℕ → ℕ` consumed one draw
  per call to `random.randint` / `random.choice`, together with a
  stream `rnd : ℕ → ℚ` giving the value of each `random.random()` draw.
  `np.sin` / `np.cos` are abstracted by arbitrary total functions
  `sinq cosq : ℚ → ℚ` (real sine and cosine are total and finite on
  finite inputs); no claim below depends on their values.
* The unbounded recursion of `buildImg` is embedded with an explicit
  fuel parameter counting the remaining allowed recursion depth;
  exhausted fuel yields `none`.  Termination of the source is recovered
  by proving that fuel `30 - depth` can never be exhausted.
-/

namespace Malevich

/-- A machine floating-point value, exactly: `some q` is the finite
value `q`, `none` is a non-finite value (`inf` or `NaN`). -/
def Flt : Type := Option ℚ

instance : DecidableEq Flt := inferInstanceAs (DecidableEq (Option ℚ))

/-- `np.add` on scalars: non-finite operands propagate. -/
def addF : Flt → Flt → Flt
  | some x, some y => some (x + y)
  | _, _ => none

/-- `np.subtract` on scalars. -/
def subF : Flt → Flt → Flt
  | some x, some y => some (x - y)
  | _, _ => none

/-- `np.multiply` on scalars. -/
def mulF : Flt → Flt → Flt
  | some x, some y => some (x * y)
  | _, _ => none

/-- `np.divide` on scalars: division by exactly zero produces a
non-finite value (`inf` or `NaN`); non-finite operands propagate. -/
def divF : Flt → Flt → Flt
  | some x, some y => if y = 0 then none else some (x / y)
  | _, _ => none

/-- `np.maximum` on scalars (`NaN` propagates, as in NumPy). -/
def maxF : Flt → Flt → Flt
  | some x, some y => some (max x y)
  | _, _ => none

/-- `np.minimum` on scalars. -/
def minF : Flt → Flt → Flt
  | some x, some y => some (min x y)
  | _, _ => none

/-- Lift a total function on finite values to `Flt`. -/
def liftF (f : ℚ → ℚ) : Flt → Flt
  | some x => some (f x)
  | none => none

/-- A three-axis NumPy array: a shape and a total element function. -/
structure Arr where
  s0 : ℕ
  s1 : ℕ
  s2 : ℕ
  dat : ℕ → ℕ → ℕ → Flt

/-- Two axis lengths are broadcast-compatible when they are equal or
one of them is `1`. -/
def axCompat (m n : ℕ) : Prop := m = n ∨ m = 1 ∨ n = 1

instance (m n : ℕ) : Decidable (axCompat m n) :=
  decidable_of_iff (m = n ∨ m = 1 ∨ n = 1) Iff.rfl

/-- Full broadcast compatibility of two arrays. -/
def compatible (a b : Arr) : Prop :=
  axCompat a.s0 b.s0 ∧ axCompat a.s1 b.s1 ∧ axCompat a.s2 b.s2

instance (a b : Arr) : Decidable (compatible a b) :=
  inferInstanceAs (Decidable (_ ∧ _ ∧ _))

/-- An element-wise binary NumPy operation with broadcasting: the
result axis is the max of the operand axes, size-1 axes are repeated
(index reduced mod the axis length); incompatible shapes fail, which
models the broadcast error NumPy raises. -/
def binArr (f : Flt → Flt → Flt) (a b : Arr) : Option Arr :=
  if compatible a b then
    some ⟨max a.s0 b.s0, max a.s1 b.s1, max a.s2 b.s2,
      fun i j k =>
        f (a.dat (i % a.s0) (j % a.s1) (k % a.s2))
          (b.dat (i % b.s0) (j % b.s1) (k % b.s2))⟩
  else none

/-- An element-wise unary NumPy operation (shape preserved). -/
def mapArr (f : Flt → Flt) (a : Arr) : Arr :=
  ⟨a.s0, a.s1, a.s2, fun i j k => f (a.dat i j k)⟩

/-- The value at index `i` of `np.linspace(0.0, 1.0, n)`. -/
def linVal (n i : ℕ) : ℚ := if n ≤ 1 then 0 else (i : ℚ) / ((n : ℚ) - 1)

/-- `self.xArray = np.linspace(0.0, 1.0, dX).reshape((1, dX, 1))`. -/
def xArr (dX : ℕ) : Arr := ⟨1, dX, 1, fun _ j _ => some (linVal dX j)⟩

/-- `self.yArray = np.linspace(0.0, 1.0, dY).reshape((dY, 1, 1))`. -/
def yArr (dY : ℕ) : Arr := ⟨dY, 1, 1, fun i _ _ => some (linVal dY i)⟩

/-- `randColor`: three random values reshaped to `(1, 1, 3)`. -/
def colorArr (r g b : ℚ) : Arr :=
  ⟨1, 1, 3, fun _ _ k => some (if k = 0 then r else if k = 1 then g else b)⟩

/-- `np.maximum(b, 0.001)`: the scalar `0.001` broadcasts over `b`. -/
def maxEps (b : Arr) : Arr := mapArr (fun v => maxF v (some (1 / 1000))) b

/-- `Magnet.safeDivide(a, b) = np.divide(a, np.maximum(b, 0.001))`. -/
def safeDivide (a b : Arr) : Option Arr := binArr divF a (maxEps b)

/-- `np.tile(a, (r0, r1, r2))`: repeat the array `rᵢ` times along
axis `i`; never fails for natural repetition counts. -/
def npTile (a : Arr) (r0 r1 r2 : ℕ) : Arr :=
  ⟨a.s0 * r0, a.s1 * r1, a.s2 * r2,
    fun i j k => a.dat (i % a.s0) (j % a.s1) (k % a.s2)⟩

/-- Line 57 of `creaate_image`:
`np.tile(img, (int(dX / img.shape[0]), int(dY / img.shape[1]), int(3 / img.shape[2])))`.
`int` truncates the float ratio toward zero, which on naturals is
floor division. -/
def tileStep (dX dY : ℕ) (a : Arr) : Arr :=
  npTile a (dX / a.s0) (dY / a.s1) (3 / a.s2)

/-- `img.clip(0.0, 1.0)` element-wise (`NaN` propagates). -/
def clipA (a : Arr) : Arr :=
  mapArr (fun v => minF (maxF v (some 0)) (some 1)) a

/-- `* 255.0` element-wise. -/
def scaleA (a : Arr) : Arr := mapArr (liftF (fun x => x * 255)) a

/-- `np.rint` element-wise: round to the nearest integer.  (NumPy
rounds halves to even, `round` rounds halves up; the difference is
immaterial to every bound proved below.) -/
def rintA (a : Arr) : Arr := mapArr (liftF (fun x => ((round x : ℤ) : ℚ))) a

/-- An 8-bit pixel buffer: a shape and natural-valued elements. -/
structure Arr8 where
  s0 : ℕ
  s1 : ℕ
  s2 : ℕ
  dat : ℕ → ℕ → ℕ → ℕ

/-- `np.uint8` cast of one already-rounded value: wraps mod 256.  The
cast of a non-finite float is unspecified; the model returns 0 there,
and finiteness at this stage is proved separately. -/
def toU8 (v : Flt) : ℕ :=
  match v with
  | some x => ((round x : ℤ) % 256).toNat
  | none => 0

/-- `np.uint8(...)` applied to a whole array. -/
def toU8A (a : Arr) : Arr8 := ⟨a.s0, a.s1, a.s2, fun i j k => toU8 (a.dat i j k)⟩

/-- The operator kinds of the `functions` dispatch table. -/
inductive OpK where
  | randColor
  | getX
  | getY
  | sin
  | cos
  | add
  | subtract
  | multiply
  | safeDivide
  deriving DecidableEq

/-- The dispatch table of `buildImg` (lines 34-42): pairs of arity and
operator. -/
def functions : List (ℕ × OpK) :=
  [(0, OpK.randColor), (0, OpK.getX), (0, OpK.getY),
   (1, OpK.sin), (1, OpK.cos),
   (2, OpK.add), (2, OpK.subtract), (2, OpK.multiply), (2, OpK.safeDivide)]

/-- The eligibility filter of lines 46-48: non-leaves while
`depth < depthMax`, leaves once `depth >= depthMin`. -/
def eligibleFuncs (depth depthMin depthMax : ℕ) : List (ℕ × OpK) :=
  functions.filter fun f =>
    decide ((0 < f.1 ∧ depth < depthMax) ∨ (f.1 = 0 ∧ depthMin ≤ depth))

/-- `random.randint(lo, hi)` (both ends included), consuming the draw
at position `pos` of the oracle stream `s`. -/
def randint (s : ℕ → ℕ) (pos lo hi : ℕ) : ℕ := lo + s pos % (hi + 1 - lo)

/-- The `Magnet` object: its construction parameters `dX`, `dY`. -/
structure Magnet where
  dX : ℕ
  dY : ℕ

/-- Application of one chosen operator to its already-built argument
list.  `rnd pos` is the value of the `random.random()` draw consumed
at stream position `pos` (only `randColor` draws).  A wrong argument
count fails (unreachable from `buildImg`). -/
def applyOp (m : Magnet) (sinq cosq : ℚ → ℚ) (rnd : ℕ → ℚ)
    (op : OpK) (args : List Arr) (pos : ℕ) : Option (Arr × ℕ) :=
  match op, args with
  | OpK.randColor, [] =>
      some (colorArr (rnd pos) (rnd (pos + 1)) (rnd (pos + 2)), pos + 3)
  | OpK.getX, [] => some (xArr m.dX, pos)
  | OpK.getY, [] => some (yArr m.dY, pos)
  | OpK.sin, [a] => some (mapArr (liftF sinq) a, pos)
  | OpK.cos, [a] => some (mapArr (liftF cosq) a, pos)
  | OpK.add, [a, b] => (binArr addF a b).map fun c => (c, pos)
  | OpK.subtract, [a, b] => (binArr subF a b).map fun c => (c, pos)
  | OpK.multiply, [a, b] => (binArr mulF a b).map fun c => (c, pos)
  | OpK.safeDivide, [a, b] => (safeDivide a b).map fun c => (c, pos)
  | _, _ => none

/-- `args = [self.buildImg(depth + 1) for n in range(nArgs)]`: build
`n` children left to right, threading the stream position. -/
def buildArgs (child : ℕ → Option (Arr × ℕ)) : ℕ → ℕ → Option (List Arr × ℕ)
  | 0, pos => some ([], pos)
  | n + 1, pos =>
    match child pos with
    | none => none
    | some (a, p) =>
      match buildArgs child n p with
      | none => none
      | some (l, q) => some (a :: l, q)

/-- Lines 43-49 of `buildImg`: draw `depthMin = randint(2, 10)` at
stream position `pos` and `depthMax = randint(10, 30)` at `pos + 1`,
filter the dispatch table, and choose one entry uniformly
(`random.choice`, the draw at `pos + 2`); `random.choice` of an empty
list fails. -/
def chooseF (s : ℕ → ℕ) (depth pos : ℕ) : Option (ℕ × OpK) :=
  match eligibleFuncs depth (randint s pos 2 10) (randint s (pos + 1) 10 30) with
  | [] => none
  | f :: t =>
      some ((f :: t).get
        ⟨s (pos + 2) % (f :: t).length, Nat.mod_lt _ (Nat.succ_pos _)⟩)

/-- `Magnet.buildImg` (lines 33-51), fused construction and evaluation
exactly as in the source: every call draws its own `depthMin` and
`depthMax` and chooses an eligible operator (`chooseF`), recursively
builds the arguments at `depth + 1`, and applies the operator.
`fuel` bounds the remaining recursion depth; exhausted fuel yields
`none`. -/
def buildImgF (m : Magnet) (sinq cosq : ℚ → ℚ) (rnd : ℕ → ℚ) (s : ℕ → ℕ) :
    ℕ → ℕ → ℕ → Option (Arr × ℕ)
  | fuel, depth, pos =>
    match chooseF s depth pos with
    | none => none
    | some (0, op) => applyOp m sinq cosq rnd op [] (pos + 3)
    | some (n + 1, op) =>
      match fuel with
      | 0 => none
      | fu + 1 =>
        match buildArgs (fun p => buildImgF m sinq cosq rnd s fu (depth + 1) p)
            (n + 1) (pos + 3) with
        | none => none
        | some (args, p) => applyOp m sinq cosq rnd op args p

/-- Argument building of the instrumented twin `buildImgR`, threading
the recorded threshold pairs of the children in call order. -/
def buildArgsR (child : ℕ → Option (Arr × List (ℕ × ℕ) × ℕ)) :
    ℕ → ℕ → Option (List Arr × List (ℕ × ℕ) × ℕ)
  | 0, pos => some ([], [], pos)
  | n + 1, pos =>
    match child pos with
    | none => none
    | some (a, l, p) =>
      match buildArgsR child n p with
      | none => none
      | some (as, l2, q) => some (a :: as, l ++ l2, q)

/-- Instrumented twin of `buildImgF`, structurally identical, that
additionally records the `(depthMin, depthMax)` pair drawn by every
recursive call, in call order.  `buildImgR_proj` below proves that
forgetting the record gives back `buildImgF`. -/
def buildImgR (m : Magnet) (sinq cosq : ℚ → ℚ) (rnd : ℕ → ℚ) (s : ℕ → ℕ) :
    ℕ → ℕ → ℕ → Option (Arr × List (ℕ × ℕ) × ℕ)
  | fuel, depth, pos =>
    match chooseF s depth pos with
    | none => none
    | some (0, op) =>
      (applyOp m sinq cosq rnd op [] (pos + 3)).map fun r =>
        (r.1, [(randint s pos 2 10, randint s (pos + 1) 10 30)], r.2)
    | some (n + 1, op) =>
      match fuel with
      | 0 => none
      | fu + 1 =>
        match buildArgsR (fun p => buildImgR m sinq cosq rnd s fu (depth + 1) p)
            (n + 1) (pos + 3) with
        | none => none
        | some (args, l, p) =>
          (applyOp m sinq cosq rnd op args p).map fun r =>
            (r.1, (randint s pos 2 10, randint s (pos + 1) 10 30) :: l, r.2)

/-- `Magnet.creaate_image` (lines 53-61): build and evaluate the tree,
tile it by the truncated axis ratios, clip to `[0,1]`, scale by 255,
round, and cast to 8-bit. -/
def creaate_image (m : Magnet) (sinq cosq : ℚ → ℚ) (rnd : ℕ → ℚ) (s : ℕ → ℕ)
    (fuel pos : ℕ) : Option Arr8 :=
  match buildImgF m sinq cosq rnd s fuel 0 pos with
  | none => none
  | some (img, _) =>
      some (toU8A (rintA (scaleA (clipA (tileStep m.dX m.dY img)))))

/-- One axis of the shape family generated by the leaves: length `1`
or the full length `d`. -/
def axFam (n d : ℕ) : Prop := n = 1 ∨ n = d

/-- The shape family of every array `buildImg` can produce for a
`Magnet(dX, dY)`: axis 0 is `1` or `dY`, axis 1 is `1` or `dX`,
axis 2 is `1` or `3`. -/
def shapeFam (m : Magnet) (a : Arr) : Prop :=
  axFam a.s0 m.dY ∧ axFam a.s1 m.dX ∧ axFam a.s2 3

/-- Every in-shape element of the array is a finite value. -/
def FiniteA (a : Arr) : Prop :=
  ∀ i, i < a.s0 → ∀ j, j < a.s1 → ∀ k, k < a.s2 → (a.dat i j k).isSome = true

/-- All three axes are non-empty. -/
def posShape (a : Arr) : Prop := 0 < a.s0 ∧ 0 < a.s1 ∧ 0 < a.s2

/-- The safe-division contract exactly as the spec words it:
`safe_divide(a, b) = a / max(b, epsilon)` with `epsilon = 0.001`,
element-wise on finite values. -/
def spec_safe_divide (x y : ℚ) : ℚ := x / max y (1 / 1000)

/-! ### Concrete inputs used by counterexamples and witnesses -/

/-- A `Magnet` with distinct dimensions: width `dX = 4`, height
`dY = 2`. -/
def mWide : Magnet := ⟨4, 2⟩

/-- A square `Magnet`. -/
def mSq : Magnet := ⟨100, 100⟩

/-- An arbitrary interpretation of `np.sin` / `np.cos` for concrete
runs (no claim depends on the values). -/
def zeroQ : ℚ → ℚ := fun _ => 0

/-- An arbitrary `random.random()` value stream for concrete runs. -/
def zeroR : ℕ → ℚ := fun _ => 0

/-- The all-zero entropy stream. -/
def streamZero : ℕ → ℕ := fun _ => 0

/-- The all-zero entropy stream altered from draw 12 on. -/
def streamZeroTail : ℕ → ℕ := fun n => if n < 12 then 0 else 7

/-- An entropy stream whose top-level call draws thresholds `(2, 10)`
while every deeper call draws `(2, 30)`; the choice draws select `sin`
at depths 0 through 10 and `getX` at depth 11, so the recursion
reaches depth 11 even though the top-level `depthMax` is 10. -/
def streamDeep : ℕ → ℕ := fun n =>
  if n = 1 then 0
  else if n % 3 = 2 then (if n / 3 ≤ 1 then 0 else if n / 3 = 11 then 1 else 3)
  else if n % 3 = 1 then 20
  else 0

/-- An entropy stream producing the three-node tree
`sin (sin getX)` whose three calls draw the threshold pairs
`(2, 10)`, `(2, 30)` and `(2, 10)`. -/
def streamRolls : ℕ → ℕ := fun n => if n = 4 then 20 else if n = 8 then 1 else 0

/-- An evaluated field of shape `(1, 7, 1)`: width 7, which does not
divide a width-100 target. -/
def arrW7 : Arr := ⟨1, 7, 1, fun _ _ _ => some 0⟩

/-- A constant scalar field of shape `(1, 1, 1)`. -/
def constArr (q : ℚ) : Arr := ⟨1, 1, 1, fun _ _ _ => some q⟩

/-! ### Draws and the eligibility filter -/

theorem le_randint (s : ℕ → ℕ) (pos lo hi : ℕ) : lo ≤ randint s pos lo hi :=
  Nat.le_add_right _ _

theorem randint_le (s : ℕ → ℕ) (pos lo hi : ℕ) (h : lo ≤ hi) :
    randint s pos lo hi ≤ hi := by
  have h0 : 0 < hi + 1 - lo := by omega
  have := Nat.mod_lt (s pos) h0
  unfold randint
  omega

theorem mem_eligible {a : ℕ × OpK} {depth dm dM : ℕ}
    (h : a ∈ eligibleFuncs depth dm dM) :
    a ∈ functions ∧ ((0 < a.1 ∧ depth < dM) ∨ (a.1 = 0 ∧ dm ≤ depth)) := by
  have h' := List.mem_filter.mp h
  exact ⟨h'.1, by simpa using h'.2⟩

theorem eligible_ne_nil (depth : ℕ) {dm dM : ℕ} (hdm : dm ≤ 10) (hdM : 10 ≤ dM) :
    eligibleFuncs depth dm dM ≠ [] := by
  rcases le_or_lt dm depth with h | h
  · exact List.ne_nil_of_mem (List.mem_filter.mpr
      ⟨show ((0 : ℕ), OpK.randColor) ∈ functions by simp [functions], by simp [h]⟩)
  · have hlt : depth < dM := by omega
    exact List.ne_nil_of_mem (List.mem_filter.mpr
      ⟨show ((1 : ℕ), OpK.sin) ∈ functions by simp [functions], by simp [hlt]⟩)

theorem chooseF_some (s : ℕ → ℕ) (depth pos : ℕ) :
    ∃ ch, chooseF s depth pos = some ch := by
  unfold chooseF
  obtain ⟨f, t, he⟩ := List.exists_cons_of_ne_nil
    (eligible_ne_nil depth
      (randint_le s pos 2 10 (by norm_num)) (le_randint s (pos + 1) 10 30))
  rw [he]
  exact ⟨_, rfl⟩

theorem chooseF_mem {s : ℕ → ℕ} {depth pos : ℕ} {ch : ℕ × OpK}
    (h : chooseF s depth pos = some ch) :
    ch ∈ functions ∧
      ((0 < ch.1 ∧ depth < randint s (pos + 1) 10 30) ∨
        (ch.1 = 0 ∧ randint s pos 2 10 ≤ depth)) := by
  unfold chooseF at h
  split at h
  · simp at h
  · next f t heq =>
      cases h
      exact mem_eligible (by rw [heq]; exact List.get_mem _ _ _)

/-! ### Stream-position monotonicity -/

theorem applyOp_pos {m : Magnet} {sq cq : ℚ → ℚ} {rnd : ℕ → ℚ} {op : OpK}
    {args : List Arr} {q : ℕ} {a : Arr} {p : ℕ}
    (h : applyOp m sq cq rnd op args q = some (a, p)) : q ≤ p := by
  unfold applyOp at h
  split at h <;> simp_all <;> omega

theorem buildArgs_le {child : ℕ → Option (Arr × ℕ)}
    (hc : ∀ q ar pr, child q = some (ar, pr) → q ≤ pr) :
    ∀ n q l p, buildArgs child n q = some (l, p) → q ≤ p := by
  intro n
  induction n with
  | zero =>
      intro q l p h
      simp only [buildArgs] at h
      cases h
      exact le_refl _
  | succ k ih =>
      intro q l p h
      simp only [buildArgs] at h
      split at h
      · simp at h
      · next a p1 heq =>
          split at h
          · simp at h
          · next l2 p2 heq2 =>
              cases h
              exact le_trans (hc q a p1 heq) (ih p1 l2 p heq2)

theorem build_pos (m : Magnet) (sq cq : ℚ → ℚ) (rnd : ℕ → ℚ) (s : ℕ → ℕ) :
    ∀ fuel depth pos a p,
      buildImgF m sq cq rnd s fuel depth pos = some (a, p) → pos + 3 ≤ p := by
  intro fuel
  induction fuel with
  | zero =>
      intro depth pos a p h
      rw [buildImgF] at h
      split at h
      · simp at h
      · exact applyOp_pos h
      · simp at h
  | succ fu ih =>
      intro depth pos a p h
      rw [buildImgF] at h
      split at h
      · simp at h
      · exact applyOp_pos h
      · dsimp only at h
        split at h
        · simp at h
        · next args p2 heq =>
            have h1 : pos + 3 ≤ p2 :=
              buildArgs_le (fun q ar pr hr => le_trans (by omega) (ih _ q ar pr hr))
                _ _ _ _ heq
            exact le_trans h1 (applyOp_pos h)

/-! ### The shape invariant -/

theorem axFam_max {x y d : ℕ} (hx : axFam x d) (hy : axFam y d) :
    axFam (max x y) d := by
  rcases Nat.le_total x y with h | h
  · rw [Nat.max_eq_right h]; exact hy
  · rw [Nat.max_eq_left h]; exact hx

theorem compat_of_fam {m : Magnet} {a b : Arr}
    (ha : shapeFam m a) (hb : shapeFam m b) : compatible a b := by
  rcases ha with ⟨a0, a1, a2⟩
  rcases hb with ⟨b0, b1, b2⟩
  unfold axFam at *
  unfold compatible axCompat
  refine ⟨?_, ?_, ?_⟩ <;> omega

theorem pos_of_fam {m : Magnet} {a : Arr} (h : shapeFam m a)
    (hx : 0 < m.dX) (hy : 0 < m.dY) : posShape a := by
  rcases h with ⟨h0, h1, h2⟩
  unfold axFam at h0 h1 h2
  unfold posShape
  omega

theorem shape_binArr {g : Flt → Flt → Flt} {a b c : Arr}
    (h : binArr g a b = some c) :
    c.s0 = max a.s0 b.s0 ∧ c.s1 = max a.s1 b.s1 ∧ c.s2 = max a.s2 b.s2 := by
  unfold binArr at h
  split at h
  · cases h; exact ⟨rfl, rfl, rfl⟩
  · simp at h

theorem binArr_some {g : Flt → Flt → Flt} {a b : Arr}
    (h : compatible a b) : ∃ c, binArr g a b = some c := by
  unfold binArr
  rw [if_pos h]
  exact ⟨_, rfl⟩

theorem applyOp_shape {m : Magnet} {sq cq : ℚ → ℚ} {rnd : ℕ → ℚ} {op : OpK}
    {args : List Arr} {q : ℕ} {a : Arr} {p : ℕ}
    (h : applyOp m sq cq rnd op args q = some (a, p))
    (hargs : ∀ x ∈ args, shapeFam m x) : shapeFam m a := by
  unfold applyOp at h
  split at h
  · cases h
    exact ⟨Or.inl rfl, Or.inl rfl, Or.inr rfl⟩
  · cases h
    exact ⟨Or.inl rfl, Or.inr rfl, Or.inl rfl⟩
  · cases h
    exact ⟨Or.inr rfl, Or.inl rfl, Or.inl rfl⟩
  · next x =>
      cases h
      exact hargs x (by simp)
  · next x =>
      cases h
      exact hargs x (by simp)
  · next x y =>
      rw [Option.map_eq_some'] at h
      obtain ⟨c, hc, hcp⟩ := h
      cases hcp
      obtain ⟨e0, e1, e2⟩ := shape_binArr hc
      have hx := hargs x (by simp)
      have hy := hargs y (by simp)
      exact ⟨e0 ▸ axFam_max hx.1 hy.1, e1 ▸ axFam_max hx.2.1 hy.2.1,
        e2 ▸ axFam_max hx.2.2 hy.2.2⟩
  · next x y =>
      rw [Option.map_eq_some'] at h
      obtain ⟨c, hc, hcp⟩ := h
      cases hcp
      obtain ⟨e0, e1, e2⟩ := shape_binArr hc
      have hx := hargs x (by simp)
      have hy := hargs y (by simp)
      exact ⟨e0 ▸ axFam_max hx.1 hy.1, e1 ▸ axFam_max hx.2.1 hy.2.1,
        e2 ▸ axFam_max hx.2.2 hy.2.2⟩
  · next x y =>
      rw [Option.map_eq_some'] at h
      obtain ⟨c, hc, hcp⟩ := h
      cases hcp
      obtain ⟨e0, e1, e2⟩ := shape_binArr hc
      have hx := hargs x (by simp)
      have hy := hargs y (by simp)
      exact ⟨e0 ▸ axFam_max hx.1 hy.1, e1 ▸ axFam_max hx.2.1 hy.2.1,
        e2 ▸ axFam_max hx.2.2 hy.2.2⟩
  · next x y =>
      unfold safeDivide at h
      rw [Option.map_eq_some'] at h
      obtain ⟨c, hc, hcp⟩ := h
      cases hcp
      obtain ⟨e0, e1, e2⟩ := shape_binArr hc
      have hx := hargs x (by simp)
      have hy := hargs y (by simp)
      exact ⟨e0 ▸ axFam_max hx.1 hy.1, e1 ▸ axFam_max hx.2.1 hy.2.1,
        e2 ▸ axFam_max hx.2.2 hy.2.2⟩
  · simp at h

theorem buildArgs_forall {child : ℕ → Option (Arr × ℕ)} {P : Arr → Prop}
    (hc : ∀ q ar pr, child q = some (ar, pr) → P ar) :
    ∀ n q l p, buildArgs child n q = some (l, p) → ∀ x ∈ l, P x := by
  intro n
  induction n with
  | zero =>
      intro q l p h
      simp only [buildArgs] at h
      cases h
      simp
  | succ k ih =>
      intro q l p h
      simp only [buildArgs] at h
      split at h
      · simp at h
      · next a p1 heq =>
          split at h
          · simp at h
          · next l2 p2 heq2 =>
              cases h
              intro x hx
              rcases List.mem_cons.mp hx with rfl | hx
              · exact hc q x p1 heq
              · exact ih p1 l2 p heq2 x hx

theorem build_shape (m : Magnet) (sq cq : ℚ → ℚ) (rnd : ℕ → ℚ) (s : ℕ → ℕ) :
    ∀ fuel depth pos a p,
      buildImgF m sq cq rnd s fuel depth pos = some (a, p) → shapeFam m a := by
  intro fuel
  induction fuel with
  | zero =>
      intro depth pos a p h
      rw [buildImgF] at h
      split at h
      · simp at h
      · exact applyOp_shape h (by simp)
      · simp at h
  | succ fu ih =>
      intro depth pos a p h
      rw [buildImgF] at h
      split at h
      · simp at h
      · exact applyOp_shape h (by simp)
      · dsimp only at h
        split at h
        · simp at h
        · next args p2 heq =>
            exact applyOp_shape h
              (buildArgs_forall (fun q ar pr hr => ih _ q ar pr hr) _ _ _ _ heq)

/-! ### Termination and totality of the builder -/

theorem build_some (m : Magnet) (sq cq : ℚ → ℚ) (rnd : ℕ → ℚ) (s : ℕ → ℕ) :
    ∀ fuel depth pos, 30 ≤ depth + fuel →
      ∃ a p, buildImgF m sq cq rnd s fuel depth pos = some (a, p) := by
  intro fuel
  induction fuel with
  | zero =>
      intro depth pos hd
      obtain ⟨ch, hch⟩ := chooseF_some s depth pos
      obtain ⟨hmem, hpred⟩ := chooseF_mem hch
      obtain ⟨n, op⟩ := ch
      rw [buildImgF, hch]
      cases n with
      | zero =>
          simp [functions] at hmem
          dsimp only
          rcases hmem with rfl | rfl | rfl <;> exact ⟨_, _, rfl⟩
      | succ k =>
          exfalso
          rcases hpred with ⟨-, hlt⟩ | ⟨hk, -⟩
          · have := randint_le s (pos + 1) 10 30 (by norm_num)
            omega
          · exact absurd hk (Nat.succ_ne_zero k)
  | succ fu ih =>
      intro depth pos hd
      obtain ⟨ch, hch⟩ := chooseF_some s depth pos
      obtain ⟨hmem, hpred⟩ := chooseF_mem hch
      obtain ⟨n, op⟩ := ch
      rw [buildImgF, hch]
      cases n with
      | zero =>
          simp [functions] at hmem
          dsimp only
          rcases hmem with rfl | rfl | rfl <;> exact ⟨_, _, rfl⟩
      | succ k =>
          have hd1 : 30 ≤ (depth + 1) + fu := by omega
          obtain ⟨a1, p1, h1⟩ := ih (depth + 1) (pos + 3) hd1
          have hs1 := build_shape m sq cq rnd s fu (depth + 1) (pos + 3) a1 p1 h1
          simp [functions] at hmem
          dsimp only
          rcases hmem with ⟨rfl, rfl⟩ | ⟨rfl, rfl⟩ | ⟨rfl, rfl⟩ | ⟨rfl, rfl⟩ |
              ⟨rfl, rfl⟩ | ⟨rfl, rfl⟩
          · -- sin
            have hb : buildArgs
                (fun p => buildImgF m sq cq rnd s fu (depth + 1) p) 1 (pos + 3)
                = some ([a1], p1) := by
              simp [buildArgs, h1]
            rw [hb]
            exact ⟨_, _, rfl⟩
          · -- cos
            have hb : buildArgs
                (fun p => buildImgF m sq cq rnd s fu (depth + 1) p) 1 (pos + 3)
                = some ([a1], p1) := by
              simp [buildArgs, h1]
            rw [hb]
            exact ⟨_, _, rfl⟩
          all_goals
            obtain ⟨a2, p2, h2⟩ := ih (depth + 1) p1 hd1
          all_goals
            have hs2 := build_shape m sq cq rnd s fu (depth + 1) p1 a2 p2 h2
          all_goals
            have hb : buildArgs
                (fun p => buildImgF m sq cq rnd s fu (depth + 1) p) 2 (pos + 3)
                = some ([a1, a2], p2) := by
              simp [buildArgs, h1, h2]
          all_goals rw [hb]
          · -- add
            obtain ⟨c, hc⟩ := binArr_some (g := addF) (compat_of_fam hs1 hs2)
            exact ⟨c, p2, by simp [applyOp, hc]⟩
          · -- subtract
            obtain ⟨c, hc⟩ := binArr_some (g := subF) (compat_of_fam hs1 hs2)
            exact ⟨c, p2, by simp [applyOp, hc]⟩
          · -- multiply
            obtain ⟨c, hc⟩ := binArr_some (g := mulF) (compat_of_fam hs1 hs2)
            exact ⟨c, p2, by simp [applyOp, hc]⟩
          · -- safeDivide
            have hs2' : shapeFam m (maxEps a2) := hs2
            obtain ⟨c, hc⟩ := binArr_some (g := divF) (compat_of_fam hs1 hs2')
            exact ⟨c, p2, by simp [applyOp, safeDivide, hc]⟩

/-! ### Finiteness: evaluation never produces `inf` or `NaN` -/

theorem addF_some : ∀ u v : Flt, u.isSome = true → v.isSome = true →
    (addF u v).isSome = true := by
  intro u v hu hv
  rcases u with - | x
  · simp [Option.isSome] at hu
  · rcases v with - | y
    · simp [Option.isSome] at hv
    · rfl

theorem subF_some : ∀ u v : Flt, u.isSome = true → v.isSome = true →
    (subF u v).isSome = true := by
  intro u v hu hv
  rcases u with - | x
  · simp [Option.isSome] at hu
  · rcases v with - | y
    · simp [Option.isSome] at hv
    · rfl

theorem mulF_some : ∀ u v : Flt, u.isSome = true → v.isSome = true →
    (mulF u v).isSome = true := by
  intro u v hu hv
  rcases u with - | x
  · simp [Option.isSome] at hu
  · rcases v with - | y
    · simp [Option.isSome] at hv
    · rfl

theorem finite_binArr {g : Flt → Flt → Flt}
    (hg : ∀ u v : Flt, u.isSome = true → v.isSome = true →
      (g u v).isSome = true)
    {a b c : Arr} (h : binArr g a b = some c)
    (ha : FiniteA a) (hb : FiniteA b) (pa : posShape a) (pb : posShape b) :
    FiniteA c := by
  unfold binArr at h
  split at h
  · cases h
    intro i hi j hj k hk
    exact hg _ _
      (ha _ (Nat.mod_lt _ pa.1) _ (Nat.mod_lt _ pa.2.1) _ (Nat.mod_lt _ pa.2.2))
      (hb _ (Nat.mod_lt _ pb.1) _ (Nat.mod_lt _ pb.2.1) _ (Nat.mod_lt _ pb.2.2))
  · simp at h

theorem finite_safeDivide {a b c : Arr} (h : safeDivide a b = some c)
    (ha : FiniteA a) (hb : FiniteA b) (pa : posShape a) (pb : posShape b) :
    FiniteA c := by
  unfold safeDivide binArr at h
  split at h
  · cases h
    intro i hi j hj k hk
    obtain ⟨x, hx⟩ := Option.isSome_iff_exists.mp
      (ha (i % a.s0) (Nat.mod_lt _ pa.1) (j % a.s1) (Nat.mod_lt _ pa.2.1)
        (k % a.s2) (Nat.mod_lt _ pa.2.2))
    obtain ⟨y, hy⟩ := Option.isSome_iff_exists.mp
      (hb (i % b.s0) (Nat.mod_lt _ pb.1) (j % b.s1) (Nat.mod_lt _ pb.2.1)
        (k % b.s2) (Nat.mod_lt _ pb.2.2))
    have hne : max y ((1000 : ℚ)⁻¹) ≠ 0 :=
      ne_of_gt (lt_of_lt_of_le (by norm_num) (le_max_right _ _))
    simp [maxEps, mapArr, maxF, divF, hx, hy, hne]
  · simp at h

theorem applyOp_finite {m : Magnet} {sq cq : ℚ → ℚ} {rnd : ℕ → ℚ} {op : OpK}
    {args : List Arr} {q : ℕ} {a : Arr} {p : ℕ}
    (h : applyOp m sq cq rnd op args q = some (a, p))
    (hargs : ∀ x ∈ args, FiniteA x ∧ posShape x) : FiniteA a := by
  unfold applyOp at h
  split at h
  · cases h
    intro i hi j hj k hk
    rfl
  · cases h
    intro i hi j hj k hk
    rfl
  · cases h
    intro i hi j hj k hk
    rfl
  · next x =>
      cases h
      intro i hi j hj k hk
      obtain ⟨v, hv⟩ := Option.isSome_iff_exists.mp
        ((hargs x (by simp)).1 i hi j hj k hk)
      simp [mapArr, liftF, hv]
  · next x =>
      cases h
      intro i hi j hj k hk
      obtain ⟨v, hv⟩ := Option.isSome_iff_exists.mp
        ((hargs x (by simp)).1 i hi j hj k hk)
      simp [mapArr, liftF, hv]
  · next x y =>
      rw [Option.map_eq_some'] at h
      obtain ⟨c, hc, hcp⟩ := h
      cases hcp
      exact finite_binArr addF_some hc (hargs x (by simp)).1 (hargs y (by simp)).1
        (hargs x (by simp)).2 (hargs y (by simp)).2
  · next x y =>
      rw [Option.map_eq_some'] at h
      obtain ⟨c, hc, hcp⟩ := h
      cases hcp
      exact finite_binArr subF_some hc (hargs x (by simp)).1 (hargs y (by simp)).1
        (hargs x (by simp)).2 (hargs y (by simp)).2
  · next x y =>
      rw [Option.map_eq_some'] at h
      obtain ⟨c, hc, hcp⟩ := h
      cases hcp
      exact finite_binArr mulF_some hc (hargs x (by simp)).1 (hargs y (by simp)).1
        (hargs x (by simp)).2 (hargs y (by simp)).2
  · next x y =>
      rw [Option.map_eq_some'] at h
      obtain ⟨c, hc, hcp⟩ := h
      cases hcp
      exact finite_safeDivide hc (hargs x (by simp)).1 (hargs y (by simp)).1
        (hargs x (by simp)).2 (hargs y (by simp)).2
  · simp at h

theorem build_finite (m : Magnet) (sq cq : ℚ → ℚ) (rnd : ℕ → ℚ) (s : ℕ → ℕ)
    (hx : 0 < m.dX) (hy : 0 < m.dY) :
    ∀ fuel depth pos a p,
      buildImgF m sq cq rnd s fuel depth pos = some (a, p) → FiniteA a := by
  intro fuel
  induction fuel with
  | zero =>
      intro depth pos a p h
      rw [buildImgF] at h
      split at h
      · simp at h
      · exact applyOp_finite h (by simp)
      · simp at h
  | succ fu ih =>
      intro depth pos a p h
      rw [buildImgF] at h
      split at h
      · simp at h
      · exact applyOp_finite h (by simp)
      · dsimp only at h
        split at h
        · simp at h
        · next args p2 heq =>
            refine applyOp_finite h
              (buildArgs_forall (P := fun x => FiniteA x ∧ posShape x)
                (fun q ar pr hr => ⟨ih _ q ar pr hr,
                  pos_of_fam (build_shape m sq cq rnd s fu _ q ar pr hr) hx hy⟩)
                _ _ _ _ heq)

/-! ### Determinism: the output is a function of the consumed draws -/

theorem applyOp_det {m : Magnet} {sq cq : ℚ → ℚ} {rnd1 rnd2 : ℕ → ℚ} {op : OpK}
    {args : List Arr} {q : ℕ} {a : Arr} {p : ℕ}
    (h : applyOp m sq cq rnd1 op args q = some (a, p))
    (hag : ∀ n, n < p → rnd1 n = rnd2 n) :
    applyOp m sq cq rnd2 op args q = some (a, p) := by
  cases op <;>
    rcases args with - | ⟨x, - | ⟨y, - | ⟨z, rest⟩⟩⟩ <;>
    simp only [applyOp] at h ⊢ <;>
    first
      | exact h
      | (obtain ⟨rfl, rfl⟩ := h
         rw [← hag q (by omega), ← hag (q + 1) (by omega),
           ← hag (q + 2) (by omega)])

theorem chooseF_det {s1 s2 : ℕ → ℕ} {depth pos : ℕ} (h0 : s1 pos = s2 pos)
    (h1 : s1 (pos + 1) = s2 (pos + 1)) (h2 : s1 (pos + 2) = s2 (pos + 2)) :
    chooseF s1 depth pos = chooseF s2 depth pos := by
  unfold chooseF randint
  simp only [h0, h1, h2]

theorem buildArgs_det {child1 child2 : ℕ → Option (Arr × ℕ)} {bound : ℕ}
    (hmono : ∀ q ar pr, child1 q = some (ar, pr) → q ≤ pr)
    (hdet : ∀ q ar pr, child1 q = some (ar, pr) → pr ≤ bound →
      child2 q = some (ar, pr)) :
    ∀ n q l p, buildArgs child1 n q = some (l, p) → p ≤ bound →
      buildArgs child2 n q = some (l, p) := by
  intro n
  induction n with
  | zero =>
      intro q l p h hb
      simp only [buildArgs] at h ⊢
      exact h
  | succ k ih =>
      intro q l p h hb
      simp only [buildArgs] at h ⊢
      split at h
      · simp at h
      · next a1 p1 heq =>
          split at h
          · simp at h
          · next l2 p2 heq2 =>
              have hpp : p2 = p := congrArg Prod.snd (Option.some.inj h)
              have hp1 : p1 ≤ p2 := buildArgs_le hmono k p1 l2 p2 heq2
              have e1 : child2 q = some (a1, p1) := hdet q a1 p1 heq (by omega)
              have e2 : buildArgs child2 k p1 = some (l2, p2) :=
                ih p1 l2 p2 heq2 (by omega)
              simp only [e1, e2]
              exact h

theorem build_det (m : Magnet) (sq cq : ℚ → ℚ) (rnd1 rnd2 : ℕ → ℚ)
    (s1 s2 : ℕ → ℕ) :
    ∀ fuel depth pos a p,
      buildImgF m sq cq rnd1 s1 fuel depth pos = some (a, p) →
      (∀ n, n < p → s1 n = s2 n) →
      (∀ n, n < p → rnd1 n = rnd2 n) →
      buildImgF m sq cq rnd2 s2 fuel depth pos = some (a, p) := by
  intro fuel
  induction fuel with
  | zero =>
      intro depth pos a p h hs hr
      have hp := build_pos m sq cq rnd1 s1 0 depth pos a p h
      rw [buildImgF] at h ⊢
      rw [← chooseF_det (hs pos (by omega)) (hs (pos + 1) (by omega))
        (hs (pos + 2) (by omega))]
      cases hch : chooseF s1 depth pos with
      | none => rw [hch] at h; simp at h
      | some ch =>
          obtain ⟨n, op⟩ := ch
          rw [hch] at h
          cases n with
          | zero => exact applyOp_det h hr
          | succ k => simp at h
  | succ fu ih =>
      intro depth pos a p h hs hr
      have hp := build_pos m sq cq rnd1 s1 (fu + 1) depth pos a p h
      rw [buildImgF] at h ⊢
      rw [← chooseF_det (hs pos (by omega)) (hs (pos + 1) (by omega))
        (hs (pos + 2) (by omega))]
      cases hch : chooseF s1 depth pos with
      | none => rw [hch] at h; simp at h
      | some ch =>
          obtain ⟨n, op⟩ := ch
          rw [hch] at h
          cases n with
          | zero => exact applyOp_det h hr
          | succ k =>
              dsimp only at h ⊢
              split at h
              · simp at h
              · next args p2 heq =>
                  have hp2 : p2 ≤ p := applyOp_pos h
                  have hb : buildArgs
                      (fun q => buildImgF m sq cq rnd2 s2 fu (depth + 1) q)
                      (k + 1) (pos + 3) = some (args, p2) := by
                    refine buildArgs_det
                      (fun q ar pr hq => le_trans (by omega)
                        (build_pos m sq cq rnd1 s1 fu (depth + 1) q ar pr hq))
                      (fun q ar pr hq hle => ih (depth + 1) q ar pr hq
                        (fun n hn => hs n (by omega))
                        (fun n hn => hr n (by omega)))
                      (k + 1) (pos + 3) args p2 heq hp2
                  simp only [hb]
                  exact applyOp_det h hr

/-! ### The instrumented twin: recorded threshold draws -/

theorem buildArgsR_proj {childR : ℕ → Option (Arr × List (ℕ × ℕ) × ℕ)}
    {child : ℕ → Option (Arr × ℕ)}
    (hc : ∀ q, (childR q).map (fun r => (r.1, r.2.2)) = child q) :
    ∀ n q, (buildArgsR childR n q).map (fun r => (r.1, r.2.2)) =
      buildArgs child n q := by
  intro n
  induction n with
  | zero =>
      intro q
      simp [buildArgsR, buildArgs]
  | succ k ih =>
      intro q
      simp only [buildArgsR, buildArgs]
      cases hcq : childR q with
      | none =>
          have h2 : child q = none := by rw [← hc q, hcq]; rfl
          rw [h2]
          simp
      | some r =>
          obtain ⟨a, l, p⟩ := r
          have h2 : child q = some (a, p) := by rw [← hc q, hcq]; rfl
          rw [h2]
          dsimp only
          cases hbk : buildArgsR childR k p with
          | none =>
              have h3 : buildArgs child k p = none := by rw [← ih p, hbk]; rfl
              rw [h3]
              simp
          | some r2 =>
              obtain ⟨as, l2, q2⟩ := r2
              have h3 : buildArgs child k p = some (as, q2) := by
                rw [← ih p, hbk]
                rfl
              rw [h3]
              simp

theorem buildImgR_proj (m : Magnet) (sq cq : ℚ → ℚ) (rnd : ℕ → ℚ) (s : ℕ → ℕ) :
    ∀ fuel depth pos,
      (buildImgR m sq cq rnd s fuel depth pos).map (fun r => (r.1, r.2.2)) =
        buildImgF m sq cq rnd s fuel depth pos := by
  intro fuel
  induction fuel with
  | zero =>
      intro depth pos
      rw [buildImgR, buildImgF]
      cases hch : chooseF s depth pos with
      | none => rfl
      | some ch =>
          obtain ⟨n, op⟩ := ch
          cases n with
          | zero =>
              dsimp only
              cases applyOp m sq cq rnd op [] (pos + 3) with
              | none => rfl
              | some r => rfl
          | succ k => rfl
  | succ fu ih =>
      intro depth pos
      rw [buildImgR, buildImgF]
      cases hch : chooseF s depth pos with
      | none => rfl
      | some ch =>
          obtain ⟨n, op⟩ := ch
          cases n with
          | zero =>
              dsimp only
              cases applyOp m sq cq rnd op [] (pos + 3) with
              | none => rfl
              | some r => rfl
          | succ k =>
              dsimp only
              cases hbk : buildArgsR
                  (fun p => buildImgR m sq cq rnd s fu (depth + 1) p)
                  (k + 1) (pos + 3) with
              | none =>
                  have h3 : buildArgs
                      (fun p => buildImgF m sq cq rnd s fu (depth + 1) p)
                      (k + 1) (pos + 3) = none := by
                    rw [← buildArgsR_proj (fun q => ih (depth + 1) q), hbk]
                    rfl
                  rw [h3]
                  rfl
              | some r2 =>
                  obtain ⟨args, l2, p2⟩ := r2
                  have h3 : buildArgs
                      (fun p => buildImgF m sq cq rnd s fu (depth + 1) p)
                      (k + 1) (pos + 3) = some (args, p2) := by
                    rw [← buildArgsR_proj (fun q => ih (depth + 1) q), hbk]
                    rfl
                  rw [h3]
                  dsimp only
                  cases applyOp m sq cq rnd op args p2 with
                  | none => rfl
                  | some r => rfl

theorem buildArgsR_forall {childR : ℕ → Option (Arr × List (ℕ × ℕ) × ℕ)}
    {P : ℕ × ℕ → Prop}
    (hc : ∀ q ar lr pr, childR q = some (ar, lr, pr) → ∀ x ∈ lr, P x) :
    ∀ n q l lr p, buildArgsR childR n q = some (l, lr, p) → ∀ x ∈ lr, P x := by
  intro n
  induction n with
  | zero =>
      intro q l lr p h
      simp only [buildArgsR] at h
      cases h
      simp
  | succ k ih =>
      intro q l lr p h
      simp only [buildArgsR] at h
      split at h
      · simp at h
      · next a l1 p1 heq =>
          split at h
          · simp at h
          · next l2 lr2 p2 heq2 =>
              cases h
              intro x hx
              rcases List.mem_append.mp hx with hx | hx
              · exact hc q _ _ _ heq x hx
              · exact ih _ _ _ _ heq2 x hx

theorem rolls_range (m : Magnet) (sq cq : ℚ → ℚ) (rnd : ℕ → ℚ) (s : ℕ → ℕ) :
    ∀ fuel depth pos a l p,
      buildImgR m sq cq rnd s fuel depth pos = some (a, l, p) →
      l ≠ [] ∧ ∀ pr ∈ l, 2 ≤ pr.1 ∧ pr.1 ≤ 10 ∧ 10 ≤ pr.2 ∧ pr.2 ≤ 30 := by
  intro fuel
  induction fuel with
  | zero =>
      intro depth pos a l p h
      rw [buildImgR] at h
      split at h
      · simp at h
      · rw [Option.map_eq_some'] at h
        obtain ⟨r, -, hr⟩ := h
        cases hr
        refine ⟨by simp, ?_⟩
        intro pr hpr
        rcases List.mem_singleton.mp hpr with rfl
        refine ⟨le_randint s pos 2 10, randint_le s pos 2 10 (by norm_num),
          le_randint s (pos + 1) 10 30, randint_le s (pos + 1) 10 30 (by norm_num)⟩
      · simp at h
  | succ fu ih =>
      intro depth pos a l p h
      rw [buildImgR] at h
      split at h
      · simp at h
      · rw [Option.map_eq_some'] at h
        obtain ⟨r, -, hr⟩ := h
        cases hr
        refine ⟨by simp, ?_⟩
        intro pr hpr
        rcases List.mem_singleton.mp hpr with rfl
        refine ⟨le_randint s pos 2 10, randint_le s pos 2 10 (by norm_num),
          le_randint s (pos + 1) 10 30, randint_le s (pos + 1) 10 30 (by norm_num)⟩
      · dsimp only at h
        split at h
        · simp at h
        · next args lr p2 heq =>
            rw [Option.map_eq_some'] at h
            obtain ⟨r, -, hr⟩ := h
            cases hr
            refine ⟨by simp, ?_⟩
            intro pr hpr
            rcases List.mem_cons.mp hpr with rfl | hpr
            · exact ⟨le_randint s pos 2 10, randint_le s pos 2 10 (by norm_num),
                le_randint s (pos + 1) 10 30,
                randint_le s (pos + 1) 10 30 (by norm_num)⟩
            · exact buildArgsR_forall
                (fun q ar lq pq hq x hx => (ih _ q ar lq pq hq).2 x hx)
                _ _ _ _ _ heq pr hpr

/-! ### Tiling and quantization -/

theorem finite_tile {a : Arr} (ha : FiniteA a) (r0 r1 r2 : ℕ) :
    FiniteA (npTile a r0 r1 r2) := by
  intro i hi j hj k hk
  rcases Nat.eq_zero_or_pos a.s0 with h0 | h0
  · rw [show (npTile a r0 r1 r2).s0 = a.s0 * r0 from rfl, h0] at hi
    simp at hi
  rcases Nat.eq_zero_or_pos a.s1 with h1 | h1
  · rw [show (npTile a r0 r1 r2).s1 = a.s1 * r1 from rfl, h1] at hj
    simp at hj
  rcases Nat.eq_zero_or_pos a.s2 with h2 | h2
  · rw [show (npTile a r0 r1 r2).s2 = a.s2 * r2 from rfl, h2] at hk
    simp at hk
  exact ha _ (Nat.mod_lt _ h0) _ (Nat.mod_lt _ h1) _ (Nat.mod_lt _ h2)

theorem quant_bounds (x : ℚ) :
    0 ≤ round (min (max x 0) 1 * 255) ∧ round (min (max x 0) 1 * 255) ≤ 255 := by
  have h0 : (0 : ℚ) ≤ min (max x 0) 1 := le_min (le_max_right x 0) (by norm_num)
  have h1 : min (max x 0) 1 ≤ 1 := min_le_right _ _
  have hy0 : (0 : ℚ) ≤ min (max x 0) 1 * 255 := mul_nonneg h0 (by norm_num)
  have hy1 : min (max x 0) 1 * 255 ≤ 255 := by nlinarith
  constructor
  · rw [round_eq]
    exact Int.floor_nonneg.mpr (by linarith)
  · rw [round_eq]
    have hlt : min (max x 0) 1 * 255 + 1 / 2 < ((256 : ℤ) : ℚ) := by
      push_cast
      linarith
    have := Int.floor_lt.mpr hlt
    omega

/-! ### Claim theorems -/

/-- Claim C1, counterexample: the claim fails as stated.  For the
`Magnet(dX = 4, dY = 2)` target — width 4, height 2 — the evaluated
field `yArr 2` of shape `(2, 1, 1)` integer-tiles into the target
`(height, width, 3) = (2, 4, 3)` (2 ∣ 2, 1 ∣ 4, 1 ∣ 3), yet the tiling
of `creaate_image` produces shape `(4, 2, 3)`, not `(2, 4, 3)`: line
57 divides `dX` by axis 0 and `dY` by axis 1, transposed relative to
the coordinate-field layout of lines 17-18. -/
theorem C1_counter :
    (yArr 2).s0 ∣ 2 ∧ (yArr 2).s1 ∣ 4 ∧ (yArr 2).s2 ∣ 3 ∧
    (tileStep mWide.dX mWide.dY (yArr 2)).s0 = 4 ∧
    (tileStep mWide.dX mWide.dY (yArr 2)).s1 = 2 ∧
    ¬((tileStep mWide.dX mWide.dY (yArr 2)).s0 = 2 ∧
      (tileStep mWide.dX mWide.dY (yArr 2)).s1 = 4) := by
  refine ⟨⟨1, rfl⟩, ⟨4, rfl⟩, ⟨3, rfl⟩, rfl, rfl, ?_⟩
  intro hcontra
  exact absurd hcontra.1 (by decide)

/-- Claim C1, amended: the tiling step of `creaate_image` produces a
buffer of shape exactly `(dX, dY, 3)` — width by height by 3, the
transpose of the claimed `(height, width, 3)` — for every evaluated
field whose axis 0 divides `dX`, axis 1 divides `dY` and axis 2
divides 3; it matches `(height, width, 3)` only when `dX = dY`. -/
theorem C1_thm (dX dY : ℕ) (a : Arr) (h0 : a.s0 ∣ dX) (h1 : a.s1 ∣ dY)
    (h2 : a.s2 ∣ 3) :
    (tileStep dX dY a).s0 = dX ∧ (tileStep dX dY a).s1 = dY ∧
    (tileStep dX dY a).s2 = 3 :=
  ⟨Nat.mul_div_cancel' h0, Nat.mul_div_cancel' h1, Nat.mul_div_cancel' h2⟩

/-- Claim C1, witness: a concrete instance of the amended theorem. -/
theorem C1_witness :
    (tileStep 4 4 (xArr 4)).s0 = 4 ∧ (tileStep 4 4 (xArr 4)).s1 = 4 ∧
    (tileStep 4 4 (xArr 4)).s2 = 3 :=
  C1_thm 4 4 (xArr 4) ⟨4, rfl⟩ ⟨1, rfl⟩ ⟨3, rfl⟩

/-- Claim C2: for finite input arrays of compatible, non-empty shapes
— including a divisor array containing exact zeros, as the witness
shows — `safeDivide` succeeds and every element of the result is
finite: the clamped denominator `max(b, 0.001)` is at least `0.001`,
so the division never sees a zero denominator. -/
theorem C2_thm (a b : Arr) (pa : posShape a) (pb : posShape b)
    (ha : FiniteA a) (hb : FiniteA b) (hc : compatible a b) :
    ∃ c, safeDivide a b = some c ∧ FiniteA c := by
  have hc' : compatible a (maxEps b) := hc
  obtain ⟨c, hcc⟩ := binArr_some (g := divF) hc'
  exact ⟨c, hcc, finite_safeDivide hcc ha hb pa pb⟩

/-- Claim C2, witness: dividing by an array of exact zeros yields a
finite result. -/
theorem C2_witness :
    ∃ c, safeDivide (constArr 5) (constArr 0) = some c ∧ FiniteA c :=
  C2_thm (constArr 5) (constArr 0)
    ⟨Nat.one_pos, Nat.one_pos, Nat.one_pos⟩
    ⟨Nat.one_pos, Nat.one_pos, Nat.one_pos⟩
    (fun _ _ _ _ _ _ => rfl) (fun _ _ _ _ _ _ => rfl)
    ⟨Or.inl rfl, Or.inl rfl, Or.inl rfl⟩

/-- Claim C3, counterexample: the claim fails as stated.  With a
square 100×100 target and an evaluated field of shape `(1, 7, 1)` —
the spec's own example, target width 100 with field width 7 — the
tiling step does not fail: `int()` floors the ratio 100/7 to 14 and
`np.tile` yields shape `(100, 98, 3)`, silently truncated; no
`ShapeMismatchError` exists anywhere in the code. -/
theorem C3_counter :
    ¬ (arrW7.s1 ∣ 100) ∧
    (tileStep 100 100 arrW7).s1 = 98 ∧
    (tileStep 100 100 arrW7).s1 ≠ 100 := by
  refine ⟨by decide, rfl, by decide⟩

/-- Claim C3, amended: when an axis ratio is not an integer, the
tiling step (a total function, like `np.tile` with natural repetition
counts) silently floors the ratio: the output axis is
`a.s1 * (dY / a.s1)`, which then differs from the target; no
`ShapeMismatchError` is raised because none exists in the code. -/
theorem C3_thm (dX dY : ℕ) (a : Arr) (hnd : ¬ a.s1 ∣ dY) :
    (tileStep dX dY a).s1 = a.s1 * (dY / a.s1) ∧
    (tileStep dX dY a).s1 ≠ dY :=
  ⟨rfl, fun hc => hnd ⟨dY / a.s1, hc.symm⟩⟩

/-- Claim C3, witness: a concrete instance of the amended theorem. -/
theorem C3_witness :
    (tileStep 100 100 arrW7).s1 = arrW7.s1 * (100 / arrW7.s1) ∧
    (tileStep 100 100 arrW7).s1 ≠ 100 :=
  C3_thm 100 100 arrW7 (by decide)

/-- Claim C6: `safeDivide(a, b)` is element-wise division with NumPy
broadcasting by the clamped denominator: each element of the result
equals `spec_safe_divide x y = x / max y (1/1000)` — the spec's
formula with `epsilon = 0.001` — applied to the broadcast-indexed
elements of `a` and `b`. -/
theorem C6_thm (a b : Arr) (pa : posShape a) (pb : posShape b)
    (ha : FiniteA a) (hb : FiniteA b) (hc : compatible a b) :
    ∃ c, safeDivide a b = some c ∧
      ∀ i, i < c.s0 → ∀ j, j < c.s1 → ∀ k, k < c.s2 →
        ∃ x y, a.dat (i % a.s0) (j % a.s1) (k % a.s2) = some x ∧
          b.dat (i % b.s0) (j % b.s1) (k % b.s2) = some y ∧
          c.dat i j k = some (spec_safe_divide x y) := by
  have hc' : compatible a (maxEps b) := hc
  unfold safeDivide binArr
  rw [if_pos hc']
  refine ⟨_, rfl, ?_⟩
  intro i hi j hj k hk
  obtain ⟨x, hx⟩ := Option.isSome_iff_exists.mp
    (ha (i % a.s0) (Nat.mod_lt _ pa.1) (j % a.s1) (Nat.mod_lt _ pa.2.1)
      (k % a.s2) (Nat.mod_lt _ pa.2.2))
  obtain ⟨y, hy⟩ := Option.isSome_iff_exists.mp
    (hb (i % b.s0) (Nat.mod_lt _ pb.1) (j % b.s1) (Nat.mod_lt _ pb.2.1)
      (k % b.s2) (Nat.mod_lt _ pb.2.2))
  have hne : max y ((1000 : ℚ)⁻¹) ≠ 0 :=
    ne_of_gt (lt_of_lt_of_le (by norm_num) (le_max_right _ _))
  refine ⟨x, y, hx, hy, ?_⟩
  simp [maxEps, mapArr, maxF, divF, spec_safe_divide, hx, hy, hne]

/-- Claim C6, witness: a concrete instance, with the divisor an exact
zero so that the clamp is exercised. -/
theorem C6_witness :
    ∃ c, safeDivide (constArr 5) (constArr 0) = some c ∧
      ∀ i, i < c.s0 → ∀ j, j < c.s1 → ∀ k, k < c.s2 →
        ∃ x y, (constArr 5).dat (i % (constArr 5).s0) (j % (constArr 5).s1)
            (k % (constArr 5).s2) = some x ∧
          (constArr 0).dat (i % (constArr 0).s0) (j % (constArr 0).s1)
            (k % (constArr 0).s2) = some y ∧
          c.dat i j k = some (spec_safe_divide x y) :=
  C6_thm (constArr 5) (constArr 0)
    ⟨Nat.one_pos, Nat.one_pos, Nat.one_pos⟩
    ⟨Nat.one_pos, Nat.one_pos, Nat.one_pos⟩
    (fun _ _ _ _ _ _ => rfl) (fun _ _ _ _ _ _ => rfl)
    ⟨Or.inl rfl, Or.inl rfl, Or.inl rfl⟩

/-- Claim C9: for every recursion depth and every threshold pair from
the configured ranges `[2, 10]` and `[10, 30]`, the eligibility filter
keeps at least one operator (a leaf once `depthMin ≤ depth`, a
non-leaf otherwise, since `depth < depthMin ≤ 10 ≤ depthMax`), so the
uniform choice of `chooseF` never fails. -/
theorem C9_thm (depth dm dM : ℕ) (_h1 : 2 ≤ dm) (h2 : dm ≤ 10)
    (h3 : 10 ≤ dM) (_h4 : dM ≤ 30) (s : ℕ → ℕ) (pos : ℕ) :
    eligibleFuncs depth dm dM ≠ [] ∧ chooseF s depth pos ≠ none := by
  refine ⟨eligible_ne_nil depth h2 h3, ?_⟩
  obtain ⟨ch, hch⟩ := chooseF_some s depth pos
  simp [hch]

/-- Claim C9, witness: a concrete instance. -/
theorem C9_witness :
    eligibleFuncs 0 2 10 ≠ [] ∧ chooseF streamZero 0 0 ≠ none :=
  C9_thm 0 2 10 (by norm_num) (by norm_num) (by norm_num) (by norm_num)
    streamZero 0

/-- Claim C4, counterexample: the claim fails as stated.  On the
concrete stream `streamRolls`, one top-level call of the builder
(which produces the three-node tree `sin (sin getX)`) draws three
threshold pairs — `(2, 10)`, `(2, 30)` and `(2, 10)`, one per
recursive call, recorded by the instrumented twin `buildImgR` — and
two of them differ, so the thresholds are neither drawn exactly once
nor shared by the whole tree. -/
theorem C4_counter :
    ((buildImgR mWide zeroQ zeroQ zeroR streamRolls 30 0 0).map fun r => r.2.1)
      = some [(2, 10), (2, 30), (2, 10)] ∧
    ((2, 10) : ℕ × ℕ) ≠ (2, 30) :=
  ⟨rfl, by decide⟩

/-- Claim C4, amended: `depthMin` and `depthMax` are re-drawn at every
recursive call, not once per top-level call: a successful build
records one `(depthMin, depthMax)` pair per call — at least one, each
drawn from `[2, 10] × [10, 30]` — and forgetting the record recovers
`buildImg` itself. -/
theorem C4_thm (m : Magnet) (sq cq : ℚ → ℚ) (rnd : ℕ → ℚ) (s : ℕ → ℕ)
    (fuel depth pos : ℕ) (a : Arr) (l : List (ℕ × ℕ)) (p : ℕ)
    (h : buildImgR m sq cq rnd s fuel depth pos = some (a, l, p)) :
    l ≠ [] ∧ (∀ pr ∈ l, 2 ≤ pr.1 ∧ pr.1 ≤ 10 ∧ 10 ≤ pr.2 ∧ pr.2 ≤ 30) ∧
    buildImgF m sq cq rnd s fuel depth pos = some (a, p) := by
  obtain ⟨h1, h2⟩ := rolls_range m sq cq rnd s fuel depth pos a l p h
  refine ⟨h1, h2, ?_⟩
  rw [← buildImgR_proj m sq cq rnd s fuel depth pos, h]
  rfl

/-- Claim C4, witness: a concrete instance of the amended theorem. -/
theorem C4_witness :
    ∃ a l p, buildImgR mWide zeroQ zeroQ zeroR streamRolls 30 0 0
        = some (a, l, p) ∧
      l ≠ [] ∧ (∀ pr ∈ l, 2 ≤ pr.1 ∧ pr.1 ≤ 10 ∧ 10 ≤ pr.2 ∧ pr.2 ≤ 30) ∧
      buildImgF mWide zeroQ zeroQ zeroR streamRolls 30 0 0 = some (a, p) := by
  cases hh : buildImgR mWide zeroQ zeroQ zeroR streamRolls 30 0 0 with
  | none =>
      have ht : (buildImgR mWide zeroQ zeroQ zeroR streamRolls 30 0 0).isSome
          = true := rfl
      rw [hh] at ht
      simp at ht
  | some r =>
      obtain ⟨a, l, p⟩ := r
      obtain ⟨h1, h2, h3⟩ :=
        C4_thm mWide zeroQ zeroQ zeroR streamRolls 30 0 0 a l p hh
      exact ⟨a, l, p, rfl, h1, h2, h3⟩

/-- Claim C5, counterexample: the claim fails as stated.  On the
concrete stream `streamDeep`, the top-level call draws
`depth_min = 2 < depth_max = 10`, both from the configured ranges, yet
the recursion reaches depth 11 > 10: with fuel bounding the recursion
depth at 10 the build runs out of fuel (each unit of fuel admits one
further recursion level), while fuel 11 suffices — because the deeper
calls draw their own `depth_max = 30`. -/
theorem C5_counter :
    randint streamDeep 0 2 10 = 2 ∧ randint streamDeep 1 10 30 = 10 ∧
    (buildImgF mWide zeroQ zeroQ zeroR streamDeep 10 0 0).isSome = false ∧
    (buildImgF mWide zeroQ zeroQ zeroR streamDeep 11 0 0).isSome = true :=
  ⟨rfl, rfl, rfl, rfl⟩

/-- Claim C5, amended: `buildImg(0)` always returns after finitely
many recursive calls on every entropy stream, and the recursion depth
never exceeds 30, the upper end of the `depthMax` range: whenever the
remaining fuel admits recursion to depth 30 (`30 ≤ depth + fuel`) the
build succeeds.  The depth bound is 30, not the top-level drawn
`depth_max`, because the thresholds are re-drawn at every call. -/
theorem C5_thm (m : Magnet) (sq cq : ℚ → ℚ) (rnd : ℕ → ℚ) (s : ℕ → ℕ)
    (fuel depth pos : ℕ) (h : 30 ≤ depth + fuel) :
    ∃ a p, buildImgF m sq cq rnd s fuel depth pos = some (a, p) :=
  build_some m sq cq rnd s fuel depth pos h

/-- Claim C5, witness: fuel 30 at depth 0 always suffices; a concrete
instance. -/
theorem C5_witness :
    ∃ a p, buildImgF mWide zeroQ zeroQ zeroR streamZero 30 0 0 = some (a, p) :=
  C5_thm mWide zeroQ zeroQ zeroR streamZero 30 0 0 (by norm_num)

/-- Claim C10: every array returned by `buildImg` for a
`Magnet(dX, dY)` has a three-axis shape with axis 0 equal to `1` or
`dY`, axis 1 equal to `1` or `dX`, and axis 2 equal to `1` or `3`;
the leaves have shapes `(1, 1, 3)`, `(1, dX, 1)` and `(dY, 1, 1)`,
and the element-wise operators preserve the family under
broadcasting. -/
theorem C10_thm (m : Magnet) (sq cq : ℚ → ℚ) (rnd : ℕ → ℚ) (s : ℕ → ℕ)
    (fuel depth pos : ℕ) (a : Arr) (p : ℕ)
    (h : buildImgF m sq cq rnd s fuel depth pos = some (a, p)) (r g b : ℚ) :
    ((a.s0 = 1 ∨ a.s0 = m.dY) ∧ (a.s1 = 1 ∨ a.s1 = m.dX) ∧
      (a.s2 = 1 ∨ a.s2 = 3)) ∧
    ((colorArr r g b).s0 = 1 ∧ (colorArr r g b).s1 = 1 ∧
      (colorArr r g b).s2 = 3) ∧
    ((xArr m.dX).s0 = 1 ∧ (xArr m.dX).s1 = m.dX ∧ (xArr m.dX).s2 = 1) ∧
    ((yArr m.dY).s0 = m.dY ∧ (yArr m.dY).s1 = 1 ∧ (yArr m.dY).s2 = 1) :=
  ⟨build_shape m sq cq rnd s fuel depth pos a p h,
    ⟨rfl, rfl, rfl⟩, ⟨rfl, rfl, rfl⟩, ⟨rfl, rfl, rfl⟩⟩

/-- Claim C10, witness: a concrete instance. -/
theorem C10_witness :
    ∃ a p, buildImgF mWide zeroQ zeroQ zeroR streamZero 30 0 0 = some (a, p) ∧
      ((a.s0 = 1 ∨ a.s0 = mWide.dY) ∧ (a.s1 = 1 ∨ a.s1 = mWide.dX) ∧
        (a.s2 = 1 ∨ a.s2 = 3)) := by
  cases hh : buildImgF mWide zeroQ zeroQ zeroR streamZero 30 0 0 with
  | none =>
      have ht : (buildImgF mWide zeroQ zeroQ zeroR streamZero 30 0 0).isSome
          = true := rfl
      rw [hh] at ht
      simp at ht
  | some r =>
      obtain ⟨a, p⟩ := r
      exact ⟨a, p, rfl,
        (C10_thm mWide zeroQ zeroQ zeroR streamZero 30 0 0 a p hh 0 0 0).1⟩

/-- Claim C7: for every `Magnet` with positive dimensions, every
interpretation of `sin`/`cos` and every entropy stream, building and
evaluating the tree succeeds, the tiled field reaching quantization
contains no non-finite value, and every channel of the final 8-bit
buffer is an integer in `[0, 255]` equal (no wraparound) to the
rounded, clipped, scaled field value. -/
theorem C7_thm (m : Magnet) (sq cq : ℚ → ℚ) (rnd : ℕ → ℚ) (s : ℕ → ℕ)
    (hx : 0 < m.dX) (hy : 0 < m.dY) (pos : ℕ) :
    ∃ a p, buildImgF m sq cq rnd s 30 0 pos = some (a, p) ∧
      FiniteA (tileStep m.dX m.dY a) ∧
      ∃ buf, creaate_image m sq cq rnd s 30 pos = some buf ∧
        ∀ i, i < buf.s0 → ∀ j, j < buf.s1 → ∀ k, k < buf.s2 →
          buf.dat i j k ≤ 255 ∧
          (rintA (scaleA (clipA (tileStep m.dX m.dY a)))).dat i j k
            = some ((buf.dat i j k : ℚ)) := by
  obtain ⟨a, p, h⟩ := build_some m sq cq rnd s 30 0 pos (by norm_num)
  have hfin := build_finite m sq cq rnd s hx hy 30 0 pos a p h
  have htile : FiniteA (tileStep m.dX m.dY a) := finite_tile hfin _ _ _
  refine ⟨a, p, h, htile, ?_⟩
  refine ⟨_, by unfold creaate_image; rw [h], ?_⟩
  intro i hi j hj k hk
  obtain ⟨x, hx'⟩ := Option.isSome_iff_exists.mp (htile i hi j hj k hk)
  obtain ⟨hz0, hz255⟩ := quant_bounds x
  have hstage : (rintA (scaleA (clipA (tileStep m.dX m.dY a)))).dat i j k
      = some (((round (min (max x 0) 1 * 255) : ℤ) : ℚ)) := by
    simp [rintA, scaleA, clipA, mapArr, liftF, minF, maxF, hx']
  have hbuf : (toU8A (rintA (scaleA (clipA (tileStep m.dX m.dY a))))).dat i j k
      = ((round (min (max x 0) 1 * 255) % 256).toNat) := by
    simp [toU8A, toU8, hstage, round_intCast]
  have hzmod : round (min (max x 0) 1 * 255) % 256
      = round (min (max x 0) 1 * 255) :=
    Int.emod_eq_of_lt hz0 (by omega)
  constructor
  · rw [hbuf, hzmod]
    omega
  · rw [hstage, hbuf, hzmod]
    have hcast : (((round (min (max x 0) 1 * 255)).toNat : ℤ) : ℚ)
        = ((round (min (max x 0) 1 * 255) : ℤ) : ℚ) := by
      rw [Int.toNat_of_nonneg hz0]
    congr 1
    exact_mod_cast hcast.symm

/-- Claim C7, witness: a concrete instance. -/
theorem C7_witness :
    ∃ a p, buildImgF mWide zeroQ zeroQ zeroR streamZero 30 0 0 = some (a, p) ∧
      FiniteA (tileStep mWide.dX mWide.dY a) ∧
      ∃ buf, creaate_image mWide zeroQ zeroQ zeroR streamZero 30 0 = some buf ∧
        ∀ i, i < buf.s0 → ∀ j, j < buf.s1 → ∀ k, k < buf.s2 →
          buf.dat i j k ≤ 255 ∧
          (rintA (scaleA (clipA (tileStep mWide.dX mWide.dY a)))).dat i j k
            = some ((buf.dat i j k : ℚ)) :=
  C7_thm mWide zeroQ zeroQ zeroR streamZero (by decide) (by decide) 0

/-- Claim C8: synthesis is deterministic: the pixel buffer is a
function of the entropy draws the build consumes.  Two runs under the
same initial random state — any two streams agreeing on the consumed
draw prefix, in particular identical ones — produce the identical
buffer. -/
theorem C8_thm (m : Magnet) (sq cq : ℚ → ℚ) (rnd1 rnd2 : ℕ → ℚ)
    (s1 s2 : ℕ → ℕ) (fuel pos : ℕ) (a : Arr) (p : ℕ)
    (h : buildImgF m sq cq rnd1 s1 fuel 0 pos = some (a, p))
    (hs : ∀ n, n < p → s1 n = s2 n) (hr : ∀ n, n < p → rnd1 n = rnd2 n) :
    creaate_image m sq cq rnd2 s2 fuel pos
      = creaate_image m sq cq rnd1 s1 fuel pos := by
  have h2 := build_det m sq cq rnd1 rnd2 s1 s2 fuel 0 pos a p h hs hr
  unfold creaate_image
  rw [h, h2]

/-- Claim C8, witness: the all-zero stream consumes draws 0 through 11
(producing `sin (sin randColor)`); altering every draw from position
12 on leaves the synthesized buffer unchanged. -/
theorem C8_witness :
    creaate_image mWide zeroQ zeroQ zeroR streamZeroTail 30 0
      = creaate_image mWide zeroQ zeroQ zeroR streamZero 30 0 := by
  cases hh : buildImgF mWide zeroQ zeroQ zeroR streamZero 30 0 0 with
  | none =>
      have ht : (buildImgF mWide zeroQ zeroQ zeroR streamZero 30 0 0).isSome
          = true := rfl
      rw [hh] at ht
      simp at ht
  | some r =>
      obtain ⟨a, p⟩ := r
      have h12 : (buildImgF mWide zeroQ zeroQ zeroR streamZero 30 0 0).map
          Prod.snd = some 12 := rfl
      rw [hh] at h12
      simp at h12
      subst h12
      exact C8_thm mWide zeroQ zeroQ zeroR zeroR streamZero streamZeroTail
        30 0 a 12 hh
        (fun n hn => by simp [streamZero, streamZeroTail, hn])
        (fun n hn => rfl)

end Malevich
